import Mathlib

set_option maxRecDepth 8000

/-!
Shallow embedding of the island-grid extraction pipeline implemented in
`hashi-solver-ui/src/opencv/TestPage.jsx` (`processImage`).

Pixel coordinates and rectangle dimensions are JavaScript numbers holding
integers; they are modelled as `Int`.  Recognized values are JavaScript
strings, modelled as `String`.  The synthetic "gap" slots pushed into the
axis arrays are the number `-1` in the source; the `undefined` produced by
reading `uniq_x[0]` from an empty array is modelled by `Option.none`, so an
axis entry is an `Option Int` (`some p` for a number `p`, `none` for
`undefined`).
-/

/-- Axis-aligned pixel rectangle as produced by `cv.boundingRect`:
`{x, y, width, height}`. -/
structure Rect where
  x : Int
  y : Int
  width : Int
  height : Int
deriving DecidableEq, Repr

/-- Default rectangle used only to give list indexing a total type. -/
def dRect : Rect := ⟨0, 0, 0, 0⟩

/-- Region Filter predicate, TestPage.jsx lines 74-79:
`rect.width > 10 && rect.height > 10 && area > 100 && area < (rows*cols)/10`.
The last comparison is JavaScript real division; over the integers
`area < (rows*cols)/10` holds exactly when `10*area < rows*cols`, which is
the form used here. -/
def regionFilter (rects : List Rect) (rows cols : Int) : List Rect :=
  rects.filter (fun r =>
    decide (10 < r.width) && decide (10 < r.height) &&
    decide (100 < r.width * r.height) &&
    decide (10 * (r.width * r.height) < rows * cols))

/-- Overlap test, TestPage.jsx lines 123-130:
`!(r1.x + r1.width < r2.x || r2.x + r2.width < r1.x || r1.y + r1.height < r2.y || r2.y + r2.height < r1.y)`. -/
def overlap (r1 r2 : Rect) : Bool :=
  !(decide (r1.x + r1.width < r2.x) || decide (r2.x + r2.width < r1.x) ||
    decide (r1.y + r1.height < r2.y) || decide (r2.y + r2.height < r1.y))

/-- Skip test of the overlap-resolution loop, TestPage.jsx lines 136-143:
rectangle `i` is kept iff it overlaps no `rectangles[j]` with `j < i`
(the inner loop runs over the original array, dropped entries included). -/
def keptAt (rectangles : List Rect) (i : Nat) : Bool :=
  (List.range i).all (fun j => !overlap (rectangles.getD i dRect) (rectangles.getD j dRect))

/-- Overlap Resolver, TestPage.jsx lines 132-159: process rectangles in
order, keeping those whose `skip` flag stays false. -/
def resolveOverlaps (rectangles : List Rect) : List Rect :=
  (List.range rectangles.length).filterMap (fun i =>
    if keptAt rectangles i then some (rectangles.getD i dRect) else none)

/-- First maximal run of decimal digits of a character list: the JavaScript
regular expression match `text.match(/\d+/)`, TestPage.jsx line 155. -/
def firstDigitRun : List Char → Option (List Char)
  | [] => none
  | c :: rest =>
    if c.isDigit then some (c :: rest.takeWhile (fun d => d.isDigit))
    else firstDigitRun rest

/-- Value Extractor, TestPage.jsx line 155:
`const v = (text.data.text.match(/\d+/) || [])[0] || "?"`. -/
def extractValue (t : String) : String :=
  match firstDigitRun t.data with
  | some run => String.mk run
  | none => ("?")

/-- One surviving rectangle's top-left position and recognized value,
TestPage.jsx line 156: `values.push({ x, y, v })`. -/
structure ExtractedValue where
  x : Int
  y : Int
  v : String
deriving DecidableEq, Repr

/-- Deduplication keeping first occurrences, TestPage.jsx lines 161-172:
push each coordinate not yet present (`indexOf === -1`). -/
def uniqInOrder (l : List Int) : List Int :=
  l.foldl (fun acc p => if p ∈ acc then acc else acc ++ [p]) []

/-- Distinct coordinates sorted ascending, TestPage.jsx lines 161-174
(`uniq_x.sort((a, b) => a - b)`). -/
def sortedUniq (l : List Int) : List Int :=
  List.insertionSort (· ≤ ·) (uniqInOrder l)

/-- Consecutive differences of a list, as read off by the loops at
TestPage.jsx lines 177-180 and 183-186. -/
def deltas : List Int → List Int
  | a :: b :: rest => (b - a) :: deltas (b :: rest)
  | _ => []

/-- JavaScript `Number.MAX_VALUE`, the initial accumulator of the
minimum-delta loops (TestPage.jsx lines 176 and 182).  Its exact value is
`(2 ^ 53 - 1) * 2 ^ 971`, written out as a literal so that the kernel can
evaluate comparisons against it. -/
def maxNumberValue : Int := 179769313486231570814527423731704356798070567525844996598917476803157260780028538760589558632766878171540458953514382464234321326889464182768467546703537516986049910576551282076245490090389328944075868508455133942304583236903222948165808559332123348274797826204144723168738177180919299881250404026184124858368

/-- Minimum consecutive difference, TestPage.jsx lines 176-186:
`min_delta = Math.min(delta, min_delta)` folded over the sorted distinct
positions, starting from `Number.MAX_VALUE`. -/
def minDelta (l : List Int) : Int :=
  (deltas l).foldl min maxNumberValue

/-- Rounded step count, TestPage.jsx lines 191 and 202:
`Math.round(delta / min_delta)`.  For a positive pitch,
`Math.round(q) = ⌊q + 1/2⌋`, and `⌊delta/pitch + 1/2⌋` equals the floor
division `(2*delta + pitch).fdiv (2*pitch)`.  A pitch `≤ 0` never occurs
in the pipeline (the pitch is `Number.MAX_VALUE` or a positive difference);
on that dead branch the JavaScript loop would not terminate, and the model
returns 0. -/
def numSteps (delta pitch : Int) : Int :=
  if 0 < pitch then Int.fdiv (2 * delta + pitch) (2 * pitch) else 0

/-- Axis-building walk, TestPage.jsx lines 189-197 (and 200-208): for each
subsequent position, push `num_steps - 1` gap slots (`-1`) and then the
position itself. -/
def walkFrom (pitch prev : Int) : List Int → List (Option Int)
  | [] => []
  | p :: rest =>
    List.replicate (numSteps (p - prev) pitch - 1).toNat (some (-1)) ++
      some p :: walkFrom pitch p rest

/-- Axis construction, TestPage.jsx lines 188-197: `xs = [uniq_x[0]]`
followed by the walk.  On an empty coordinate list `uniq_x[0]` is
`undefined`, modelled as `none`. -/
def buildAxis (uniq : List Int) : List (Option Int) :=
  match uniq with
  | [] => [none]
  | p :: rest => some p :: walkFrom (minDelta (p :: rest)) p rest

/-- The x-axis mapping of a run, TestPage.jsx lines 161-197. -/
def xsOfValues (vs : List ExtractedValue) : List (Option Int) :=
  buildAxis (sortedUniq (vs.map (fun w => w.x)))

/-- The y-axis mapping of a run, TestPage.jsx lines 161-186 and 199-208. -/
def ysOfValues (vs : List ExtractedValue) : List (Option Int) :=
  buildAxis (sortedUniq (vs.map (fun w => w.y)))

/-- JavaScript `Array.prototype.indexOf`: first index holding `target`,
`-1` if absent (used at TestPage.jsx lines 220-221). -/
def indexOfFrom (l : List (Option Int)) (target : Option Int) (start : Int) : Int :=
  match l with
  | [] => -1
  | a :: rest => if a = target then start else indexOfFrom rest target (start + 1)

/-- Cell targeted by one value's write, TestPage.jsx lines 220-222:
`x = xs.indexOf(v.x); y = ys.indexOf(v.y); arr[y][x] = v.v`.  Both lookups
succeeding is the in-range case actually exercised; a failed y-lookup would
make the JavaScript write throw and a failed x-lookup would write an array
property invisible to serialization, so the model performs no write there
(both cases are unreachable for non-negative positions, proved below). -/
def writeTarget (xs ys : List (Option Int)) (w : ExtractedValue) : Option (Nat × Nat) :=
  let xi := indexOfFrom xs (some w.x) 0
  let yi := indexOfFrom ys (some w.y) 0
  if 0 ≤ yi ∧ 0 ≤ xi then some (yi.toNat, xi.toNat) else none

/-- One write `arr[y][x] = v.v`, TestPage.jsx line 222. -/
def writeCell (xs ys : List (Option Int)) (g : List (List String)) (w : ExtractedValue) :
    List (List String) :=
  match writeTarget xs ys w with
  | some (yi, xi) => g.set yi ((g.getD yi []).set xi w.v)
  | none => g

/-- Blank grid allocation, TestPage.jsx lines 210-216: `ys.length` rows of
`xs.length` cells, each `" "`. -/
def blankGrid (rows cols : Nat) : List (List String) :=
  List.replicate rows (List.replicate cols (" "))

/-- Grid assembly, TestPage.jsx lines 210-223: allocate the blank grid and
write every value in input order. -/
def gridOf (vs : List ExtractedValue) : List (List String) :=
  vs.foldl (writeCell (xsOfValues vs) (ysOfValues vs))
    (blankGrid (ysOfValues vs).length (xsOfValues vs).length)

/-- Row serialization `r.join("")`, TestPage.jsx line 225. -/
def concatRow : List String → String
  | [] => ("")
  | s :: rest => s ++ concatRow rest

/-- Joining rows with newlines, `arr.map(...).join("\n")`, line 225. -/
def joinLines : List String → String
  | [] => ("")
  | [s] => s
  | s :: b :: rest => s ++ ("\n") ++ joinLines (b :: rest)

/-- Final recognized text `str`, TestPage.jsx line 225. -/
def gridTextOf (vs : List ExtractedValue) : String :=
  joinLines ((gridOf vs).map concatRow)

/-- Reading a grid cell; the default is the empty string, which no reachable
cell holds, so in-bounds reads are unambiguous. -/
def getCell (g : List (List String)) (i j : Nat) : String :=
  (g.getD i []).getD j ("")

/-! ### Generic list helpers -/

theorem getD_set_ne {α : Type} (l : List α) (n m : Nat) (a d : α) (h : n ≠ m) :
    (l.set n a).getD m d = l.getD m d := by
  induction l generalizing n m with
  | nil => rfl
  | cons b t ih =>
    cases n with
    | zero => cases m with
      | zero => exact absurd rfl h
      | succ m => rfl
    | succ n => cases m with
      | zero => rfl
      | succ m => simpa using ih n m (by omega)

theorem getD_set_self {α : Type} (l : List α) (n : Nat) (a d : α) (h : n < l.length) :
    (l.set n a).getD n d = a := by
  induction l generalizing n with
  | nil => simp at h
  | cons b t ih =>
    cases n with
    | zero => rfl
    | succ n => simpa using ih n (by simpa using h)

theorem getD_replicate_of_lt {α : Type} (n i : Nat) (a d : α) (h : i < n) :
    (List.replicate n a).getD i d = a := by
  induction n generalizing i with
  | zero => omega
  | succ n ih =>
    cases i with
    | zero => rfl
    | succ i => simpa [List.replicate_succ] using ih i (by omega)

theorem foldl_min_eq_or_mem (ds : List Int) (a : Int) :
    ds.foldl min a = a ∨ ds.foldl min a ∈ ds := by
  induction ds generalizing a with
  | nil => exact Or.inl rfl
  | cons d ds ih =>
    rcases ih (min a d) with h | h
    · rcases min_choice a d with hm | hm
      · exact Or.inl (by rw [List.foldl_cons, h, hm])
      · exact Or.inr (by rw [List.foldl_cons, h, hm]; exact List.mem_cons_self d ds)
    · exact Or.inr (List.mem_cons_of_mem d h)

theorem foldl_min_le_init (ds : List Int) (a : Int) : ds.foldl min a ≤ a := by
  induction ds generalizing a with
  | nil => exact le_refl a
  | cons d ds ih => exact le_trans (ih (min a d)) (min_le_left a d)

theorem foldl_min_le_mem (ds : List Int) (a : Int) (d : Int) (hd : d ∈ ds) :
    ds.foldl min a ≤ d := by
  induction ds generalizing a with
  | nil => simp at hd
  | cons e ds ih =>
    rcases List.mem_cons.mp hd with h | h
    · subst h
      exact le_trans (foldl_min_le_init ds (min a d)) (min_le_right a d)
    · exact ih (min a e) h

/-! ### Deduplication and sorting -/

theorem mem_uniqInOrder_aux (l : List Int) (acc : List Int) (p : Int) :
    (p ∈ l.foldl (fun acc q => if q ∈ acc then acc else acc ++ [q]) acc) ↔
      p ∈ acc ∨ p ∈ l := by
  induction l generalizing acc with
  | nil => simp
  | cons q l ih =>
    by_cases hq : q ∈ acc
    · simp only [List.foldl_cons, if_pos hq, ih, List.mem_cons]
      constructor
      · rintro (h | h)
        · exact Or.inl h
        · exact Or.inr (Or.inr h)
      · rintro (h | h | h)
        · exact Or.inl h
        · exact Or.inl (h ▸ hq)
        · exact Or.inr h
    · simp only [List.foldl_cons, if_neg hq, ih, List.mem_append,
        List.mem_singleton, List.mem_cons]
      tauto

theorem mem_uniqInOrder (l : List Int) (p : Int) : p ∈ uniqInOrder l ↔ p ∈ l := by
  unfold uniqInOrder
  rw [mem_uniqInOrder_aux]
  simp

theorem nodup_uniqInOrder_aux (l : List Int) (acc : List Int) (hacc : acc.Nodup) :
    (l.foldl (fun acc q => if q ∈ acc then acc else acc ++ [q]) acc).Nodup := by
  induction l generalizing acc with
  | nil => exact hacc
  | cons q l ih =>
    by_cases hq : q ∈ acc
    · simpa [List.foldl_cons, if_pos hq] using ih acc hacc
    · simp only [List.foldl_cons]
      rw [if_neg hq]
      exact ih (acc ++ [q]) (by simp [List.nodup_append, hacc, hq])

theorem nodup_uniqInOrder (l : List Int) : (uniqInOrder l).Nodup :=
  nodup_uniqInOrder_aux l [] List.nodup_nil

theorem mem_sortedUniq (l : List Int) (p : Int) : p ∈ sortedUniq l ↔ p ∈ l := by
  unfold sortedUniq
  rw [List.mem_insertionSort]
  exact mem_uniqInOrder l p

theorem nodup_sortedUniq (l : List Int) : (sortedUniq l).Nodup :=
  ((List.perm_insertionSort _ _).nodup_iff).mpr (nodup_uniqInOrder l)

theorem sorted_le_sortedUniq (l : List Int) :
    (sortedUniq l).Sorted (· ≤ ·) :=
  List.sorted_insertionSort _ _

theorem pairwise_lt_sortedUniq (l : List Int) :
    (sortedUniq l).Pairwise (· < ·) := by
  have hs := sorted_le_sortedUniq l
  have hn := nodup_sortedUniq l
  exact (List.Pairwise.and hs hn).imp (fun h => lt_of_le_of_ne h.1 h.2)

theorem eq_of_pairwise_lt_of_mem_iff :
    ∀ (l1 l2 : List Int), l1.Pairwise (· < ·) → l2.Pairwise (· < ·) →
      (∀ x, x ∈ l1 ↔ x ∈ l2) → l1 = l2 := by
  intro l1
  induction l1 with
  | nil =>
    intro l2 _ _ hm
    cases l2 with
    | nil => rfl
    | cons b t => exact absurd ((hm b).mpr (List.mem_cons_self b t)) (by simp)
  | cons a t1 ih =>
    intro l2 h1 h2 hm
    cases l2 with
    | nil => exact absurd ((hm a).mp (List.mem_cons_self a t1)) (by simp)
    | cons b t2 =>
      have hab : a = b := by
        rcases List.mem_cons.mp ((hm a).mp (List.mem_cons_self a t1)) with h | h
        · exact h
        · rcases List.mem_cons.mp ((hm b).mpr (List.mem_cons_self b t2)) with h' | h'
          · exact h'.symm
          · have hba : b < a := (List.pairwise_cons.mp h2).1 a h
            have hab : a < b := (List.pairwise_cons.mp h1).1 b h'
            omega
      subst hab
      have htail : ∀ x, x ∈ t1 ↔ x ∈ t2 := by
        intro x
        constructor
        · intro hx
          rcases List.mem_cons.mp ((hm x).mp (List.mem_cons_of_mem a hx)) with h | h
          · exact absurd ((List.pairwise_cons.mp h1).1 x hx) (by omega)
          · exact h
        · intro hx
          rcases List.mem_cons.mp ((hm x).mpr (List.mem_cons_of_mem a hx)) with h | h
          · exact absurd ((List.pairwise_cons.mp h2).1 x hx) (by omega)
          · exact h
      rw [ih t2 (List.pairwise_cons.mp h1).2 (List.pairwise_cons.mp h2).2 htail]

theorem sortedUniq_eq_of_mem_iff (l1 l2 : List Int)
    (hm : ∀ p, p ∈ l1 ↔ p ∈ l2) : sortedUniq l1 = sortedUniq l2 :=
  eq_of_pairwise_lt_of_mem_iff _ _ (pairwise_lt_sortedUniq l1) (pairwise_lt_sortedUniq l2)
    (fun x => by rw [mem_sortedUniq, mem_sortedUniq]; exact hm x)

/-! ### Consecutive differences and the pitch -/

theorem deltas_pos (l : List Int) (h : l.Pairwise (· < ·)) :
    ∀ d ∈ deltas l, 0 < d := by
  induction l with
  | nil => simp [deltas]
  | cons a t ih =>
    cases t with
    | nil => simp [deltas]
    | cons b rest =>
      intro d hd
      rcases List.mem_cons.mp hd with h1 | h1
      · have hab : a < b := (List.pairwise_cons.mp h).1 b (List.mem_cons_self b rest)
        omega
      · exact ih (List.Pairwise.of_cons h) d h1

theorem deltas_sub_mem (l : List Int) :
    ∀ d ∈ deltas l, ∃ a ∈ l, ∃ b ∈ l, d = b - a := by
  induction l with
  | nil => simp [deltas]
  | cons a t ih =>
    cases t with
    | nil => simp [deltas]
    | cons b rest =>
      intro d hd
      rcases List.mem_cons.mp hd with h1 | h1
      · exact ⟨a, List.mem_cons_self a _, b, List.mem_cons_of_mem a (List.mem_cons_self b rest), h1⟩
      · obtain ⟨x, hx, y, hy, hxy⟩ := ih d h1
        exact ⟨x, List.mem_cons_of_mem a hx, y, List.mem_cons_of_mem a hy, hxy⟩

theorem deltas_ne_nil (l : List Int) (h : 2 ≤ l.length) : deltas l ≠ [] := by
  cases l with
  | nil => simp at h
  | cons a t =>
    cases t with
    | nil => simp at h
    | cons b rest => simp [deltas]

theorem minDelta_spec (l : List Int) (h2 : 2 ≤ l.length)
    (hb : ∀ d ∈ deltas l, d ≤ maxNumberValue) :
    minDelta l ∈ deltas l ∧ ∀ d ∈ deltas l, minDelta l ≤ d := by
  have hle : ∀ d ∈ deltas l, minDelta l ≤ d :=
    fun d hd => foldl_min_le_mem (deltas l) maxNumberValue d hd
  refine ⟨?_, hle⟩
  rcases foldl_min_eq_or_mem (deltas l) maxNumberValue with h | h
  · obtain ⟨d0, hd0⟩ := List.exists_mem_of_ne_nil _ (deltas_ne_nil l h2)
    have h1 : minDelta l ≤ d0 := hle d0 hd0
    have h2' : d0 ≤ maxNumberValue := hb d0 hd0
    have : minDelta l = d0 := by
      have hM : minDelta l = maxNumberValue := h
      omega
    exact this ▸ hd0
  · exact h

theorem minDelta_pos (l : List Int) (h : l.Pairwise (· < ·)) : 0 < minDelta l := by
  rcases foldl_min_eq_or_mem (deltas l) maxNumberValue with hm | hm
  · have : minDelta l = maxNumberValue := hm
    rw [this]
    decide
  · exact deltas_pos l h (minDelta l) hm

/-- The rounded step count of an exact multiple of a positive pitch is the
multiplier: `Math.round((k*u)/u) = k`. -/
theorem numSteps_mul (k : Nat) (u : Int) (hu : 0 < u) :
    numSteps ((k : Int) * u) u = (k : Int) := by
  unfold numSteps
  rw [if_pos hu]
  have h1 : 2 * ((k : Int) * u) + u = u * (2 * (k : Int) + 1) := by ring
  have h2 : (2 * u : Int) = u * 2 := by ring
  rw [h1, h2, Int.fdiv_eq_ediv _ (by omega : (0 : Int) ≤ u * 2),
    Int.mul_ediv_mul_of_pos _ _ hu]
  omega

/-! ### The axis walk -/

theorem mem_walkFrom_of_mem (pitch : Int) :
    ∀ (l : List Int) (prev p : Int), p ∈ l → some p ∈ walkFrom pitch prev l := by
  intro l
  induction l with
  | nil => intro prev p hp; simp at hp
  | cons q rest ih =>
    intro prev p hp
    rcases List.mem_cons.mp hp with h | h
    · subst h
      simp [walkFrom]
    · simp only [walkFrom, List.mem_append, List.mem_cons]
      exact Or.inr (Or.inr (ih q p h))

theorem count_walkFrom (pitch : Int) (p : Int) (hp : p ≠ -1) :
    ∀ (l : List Int) (prev : Int),
      (walkFrom pitch prev l).count (some p) = l.count p := by
  intro l
  induction l with
  | nil => intro prev; simp [walkFrom]
  | cons q rest ih =>
    intro prev
    simp only [walkFrom, List.count_append, List.count_cons, List.count_replicate]
    rw [ih q]
    have : ((some p : Option Int) == some (-1)) = false := by
      simp only [beq_eq_false_iff_ne, ne_eq, Option.some.injEq]
      exact hp
    simp [this]
    intro h
    exact absurd h.symm hp

theorem mem_buildAxis_of_mem (l : List Int) (p : Int) (hp : p ∈ l) :
    some p ∈ buildAxis l := by
  cases l with
  | nil => simp at hp
  | cons a rest =>
    rcases List.mem_cons.mp hp with h | h
    · subst h; simp [buildAxis]
    · simp only [buildAxis, List.mem_cons]
      exact Or.inr (mem_walkFrom_of_mem _ rest a p h)

theorem count_buildAxis (l : List Int) (p : Int) (hp : p ≠ -1) (hl : l ≠ []) :
    (buildAxis l).count (some p) = l.count p := by
  cases l with
  | nil => exact absurd rfl hl
  | cons a rest =>
    simp only [buildAxis, List.count_cons]
    rw [count_walkFrom _ p hp rest a]
    by_cases hap : a = p <;> simp [hap]

/-! ### JavaScript indexOf -/

theorem indexOfFrom_of_mem (l : List (Option Int)) (t : Option Int) (ht : t ∈ l) :
    ∃ m : Nat, (∀ s : Int, indexOfFrom l t s = s + m) ∧ m < l.length ∧
      l.getD m none = t := by
  induction l with
  | nil => simp at ht
  | cons a rest ih =>
    by_cases ha : a = t
    · refine ⟨0, fun s => ?_, by simp, by simpa using ha⟩
      simp [indexOfFrom, ha]
    · have ht' : t ∈ rest := by
        rcases List.mem_cons.mp ht with h | h
        · exact absurd h.symm ha
        · exact h
      obtain ⟨m, hm, hlen, hget⟩ := ih ht'
      refine ⟨m + 1, fun s => ?_, by simpa using hlen, by simpa using hget⟩
      simp only [indexOfFrom, if_neg ha]
      rw [hm (s + 1)]
      omega

theorem indexOfFrom_of_not_mem (l : List (Option Int)) (t : Option Int) (ht : t ∉ l) :
    ∀ s : Int, indexOfFrom l t s = -1 := by
  induction l with
  | nil => intro s; rfl
  | cons a rest ih =>
    intro s
    have ha : a ≠ t := fun h => ht (h ▸ List.mem_cons_self a rest)
    simp only [indexOfFrom, if_neg ha]
    exact ih (fun h => ht (List.mem_cons_of_mem a h)) (s + 1)

/-! ### Grid write lemmas -/

theorem getD_eq_default_of_le {α : Type} (l : List α) (n : Nat) (d : α)
    (h : l.length ≤ n) : l.getD n d = d := by
  induction l generalizing n with
  | nil => cases n <;> rfl
  | cons a t ih =>
    cases n with
    | zero => simp at h
    | succ n => simpa using ih n (by simpa using h)

theorem getD_mem_of_lt {α : Type} (l : List α) (n : Nat) (d : α)
    (h : n < l.length) : l.getD n d ∈ l := by
  induction l generalizing n with
  | nil => simp at h
  | cons a t ih =>
    cases n with
    | zero => exact List.mem_cons_self a t
    | succ n => exact List.mem_cons_of_mem a (ih n (by simpa using h))

theorem length_writeCell (xs ys : List (Option Int)) (g : List (List String))
    (w : ExtractedValue) : (writeCell xs ys g w).length = g.length := by
  unfold writeCell
  cases writeTarget xs ys w with
  | none => rfl
  | some t => cases t with
    | mk yi xi => simp [List.length_set]

theorem rowlen_writeCell (xs ys : List (Option Int)) (g : List (List String))
    (w : ExtractedValue) (i : Nat) :
    ((writeCell xs ys g w).getD i []).length = (g.getD i []).length := by
  cases ht : writeTarget xs ys w with
  | none => simp [writeCell, ht]
  | some t =>
    cases t with
    | mk yi xi =>
      simp only [writeCell, ht]
      by_cases hi : yi = i
      · subst hi
        by_cases hlen : yi < g.length
        · rw [getD_set_self _ _ _ _ hlen, List.length_set]
        · rw [List.set_eq_of_length_le (by omega)]
      · rw [getD_set_ne _ _ _ _ _ hi]

theorem getCell_writeCell_ne (xs ys : List (Option Int)) (g : List (List String))
    (w : ExtractedValue) (i j : Nat) (h : writeTarget xs ys w ≠ some (i, j)) :
    getCell (writeCell xs ys g w) i j = getCell g i j := by
  cases ht : writeTarget xs ys w with
  | none => simp [writeCell, getCell, ht]
  | some t =>
    cases t with
    | mk yi xi =>
      simp only [writeCell, getCell, ht]
      by_cases hi : yi = i
      · subst hi
        have hj : xi ≠ j := by
          intro hx
          exact h (by rw [ht, hx])
        by_cases hlen : yi < g.length
        · rw [getD_set_self _ _ _ _ hlen, getD_set_ne _ _ _ _ _ hj]
        · rw [List.set_eq_of_length_le (by omega)]
      · rw [getD_set_ne _ _ _ _ _ hi]

theorem getCell_writeCell_eq (xs ys : List (Option Int)) (g : List (List String))
    (w : ExtractedValue) (i j : Nat) (h : writeTarget xs ys w = some (i, j))
    (hi : i < g.length) (hj : j < (g.getD i []).length) :
    getCell (writeCell xs ys g w) i j = w.v := by
  simp only [writeCell, getCell, h]
  rw [getD_set_self _ _ _ _ hi, getD_set_self _ _ _ _ hj]

theorem length_foldl_write (xs ys : List (Option Int)) :
    ∀ (vs : List ExtractedValue) (g : List (List String)),
      (vs.foldl (writeCell xs ys) g).length = g.length := by
  intro vs
  induction vs with
  | nil => intro g; rfl
  | cons v rest ih =>
    intro g
    rw [List.foldl_cons, ih (writeCell xs ys g v), length_writeCell]

theorem rowlen_foldl_write (xs ys : List (Option Int)) :
    ∀ (vs : List ExtractedValue) (g : List (List String)) (i : Nat),
      ((vs.foldl (writeCell xs ys) g).getD i []).length = (g.getD i []).length := by
  intro vs
  induction vs with
  | nil => intro g i; rfl
  | cons v rest ih =>
    intro g i
    rw [List.foldl_cons, ih (writeCell xs ys g v) i, rowlen_writeCell]

theorem getCell_foldl_of_no_write (xs ys : List (Option Int)) :
    ∀ (vs : List ExtractedValue) (g : List (List String)) (i j : Nat),
      (∀ w ∈ vs, writeTarget xs ys w ≠ some (i, j)) →
      getCell (vs.foldl (writeCell xs ys) g) i j = getCell g i j := by
  intro vs
  induction vs with
  | nil => intro g i j _; rfl
  | cons v rest ih =>
    intro g i j h
    rw [List.foldl_cons, ih (writeCell xs ys g v) i j
      (fun w hw => h w (List.mem_cons_of_mem v hw)),
      getCell_writeCell_ne _ _ _ _ _ _ (h v (List.mem_cons_self v rest))]

theorem getCell_foldl_written (xs ys : List (Option Int)) :
    ∀ (vs : List ExtractedValue) (g : List (List String)) (i j : Nat),
      (∃ w ∈ vs, writeTarget xs ys w = some (i, j)) →
      i < g.length → j < (g.getD i []).length →
      ∃ w ∈ vs, writeTarget xs ys w = some (i, j) ∧
        getCell (vs.foldl (writeCell xs ys) g) i j = w.v := by
  intro vs
  induction vs with
  | nil => intro g i j hex _ _; simp at hex
  | cons v rest ih =>
    intro g i j hex hi hj
    rw [List.foldl_cons]
    by_cases hrest : ∃ w ∈ rest, writeTarget xs ys w = some (i, j)
    · obtain ⟨w, hw, hwt, hcell⟩ := ih (writeCell xs ys g v) i j hrest
        (by rw [length_writeCell]; exact hi) (by rw [rowlen_writeCell]; exact hj)
      exact ⟨w, List.mem_cons_of_mem v hw, hwt, hcell⟩
    · have hv : writeTarget xs ys v = some (i, j) := by
        obtain ⟨w, hw, hwt⟩ := hex
        rcases List.mem_cons.mp hw with h | h
        · exact h ▸ hwt
        · exact absurd ⟨w, h, hwt⟩ hrest
      refine ⟨v, List.mem_cons_self v rest, hv, ?_⟩
      rw [getCell_foldl_of_no_write xs ys rest (writeCell xs ys g v) i j
        (fun w hw hwt => hrest ⟨w, hw, hwt⟩)]
      exact getCell_writeCell_eq xs ys g v i j hv hi hj

theorem cells_of_foldl (xs ys : List (Option Int)) (P : String → Prop) :
    ∀ (vs : List ExtractedValue) (g : List (List String)),
      (∀ row ∈ g, ∀ c ∈ row, P c) → (∀ w ∈ vs, P w.v) →
      ∀ row ∈ vs.foldl (writeCell xs ys) g, ∀ c ∈ row, P c := by
  intro vs
  induction vs with
  | nil => intro g hg _; exact hg
  | cons v rest ih =>
    intro g hg hvs
    rw [List.foldl_cons]
    refine ih (writeCell xs ys g v) ?_ (fun w hw => hvs w (List.mem_cons_of_mem v hw))
    intro row hrow c hc
    unfold writeCell at hrow
    cases ht : writeTarget xs ys v with
    | none =>
      rw [ht] at hrow
      exact hg row hrow c hc
    | some t =>
      cases t with
      | mk yi xi =>
        rw [ht] at hrow
        rcases List.mem_or_eq_of_mem_set hrow with h | h
        · exact hg row h c hc
        · subst h
          rcases List.mem_or_eq_of_mem_set hc with h | h
          · by_cases hlen : yi < g.length
            · exact hg _ (getD_mem_of_lt _ _ _ hlen) c h
            · rw [getD_eq_default_of_le _ _ _ (by omega)] at h
              simp at h
          · exact h ▸ hvs v (List.mem_cons_self v rest)

/-! ### Serialization helpers -/

theorem data_append (s t : String) : (s ++ t).data = s.data ++ t.data := rfl

theorem concatRow_length_of_single (row : List String)
    (h : ∀ c ∈ row, String.length c = 1) :
    (concatRow row).length = row.length := by
  induction row with
  | nil => rfl
  | cons s rest ih =>
    simp only [concatRow, String.length_append,
      ih (fun c hc => h c (List.mem_cons_of_mem s hc)),
      h s (List.mem_cons_self s rest), List.length_cons]
    omega

theorem mem_data_concatRow (row : List String) (c : Char)
    (hc : c ∈ (concatRow row).data) : ∃ s ∈ row, c ∈ s.data := by
  induction row with
  | nil => simp [concatRow] at hc
  | cons s rest ih =>
    rw [concatRow, data_append] at hc
    rcases List.mem_append.mp hc with h | h
    · exact ⟨s, List.mem_cons_self s rest, h⟩
    · obtain ⟨t, ht, hct⟩ := ih h
      exact ⟨t, List.mem_cons_of_mem s ht, hct⟩

theorem mem_data_joinLines :
    ∀ (rows : List String) (c : Char), c ∈ (joinLines rows).data →
      (∃ s ∈ rows, c ∈ s.data) ∨ c = '\n' := by
  intro rows
  induction rows with
  | nil => intro c hc; simp [joinLines] at hc
  | cons s rest ih =>
    intro c hc
    cases rest with
    | nil =>
      exact Or.inl ⟨s, List.mem_cons_self s [], hc⟩
    | cons b rest' =>
      rw [joinLines, data_append, data_append] at hc
      rcases List.mem_append.mp hc with h | h
      · rcases List.mem_append.mp h with h1 | h1
        · exact Or.inl ⟨s, List.mem_cons_self s _, h1⟩
        · right
          simpa using h1
      · rcases ih c h with ⟨t, ht, hct⟩ | h1
        · exact Or.inl ⟨t, List.mem_cons_of_mem s ht, hct⟩
        · exact Or.inr h1

/-! ### Digit run extraction -/

theorem head_dropWhile_not (p : Char → Bool) :
    ∀ (l : List Char) (c : Char), (l.dropWhile p).head? = some c → p c = false := by
  intro l
  induction l with
  | nil => intro c hc; simp [List.dropWhile] at hc
  | cons a rest ih =>
    intro c hc
    by_cases ha : p a
    · rw [List.dropWhile_cons_of_pos ha] at hc
      exact ih c hc
    · rw [List.dropWhile_cons_of_neg ha] at hc
      simp only [List.head?_cons, Option.some.injEq] at hc
      rw [← hc]
      exact Bool.of_not_eq_true ha

theorem firstDigitRun_of_all_not (l : List Char)
    (h : ∀ c ∈ l, c.isDigit = false) : firstDigitRun l = none := by
  induction l with
  | nil => rfl
  | cons a rest ih =>
    rw [firstDigitRun, if_neg (by simp [h a (List.mem_cons_self a rest)])]
    exact ih (fun c hc => h c (List.mem_cons_of_mem a hc))

theorem firstDigitRun_some_spec :
    ∀ (l run : List Char), firstDigitRun l = some run →
      ∃ pre suf, l = pre ++ run ++ suf ∧ (∀ c ∈ pre, c.isDigit = false) ∧
        run ≠ [] ∧ (∀ c ∈ run, c.isDigit = true) ∧
        (∀ c, suf.head? = some c → c.isDigit = false) := by
  intro l
  induction l with
  | nil => intro run h; simp [firstDigitRun] at h
  | cons a rest ih =>
    intro run h
    by_cases ha : a.isDigit
    · rw [firstDigitRun, if_pos ha] at h
      have hrun : run = a :: rest.takeWhile (fun d => d.isDigit) := by
        simpa using h.symm
      refine ⟨[], rest.dropWhile (fun d => d.isDigit), ?_, by simp, ?_, ?_, ?_⟩
      · rw [hrun]
        simp [List.takeWhile_append_dropWhile]
      · rw [hrun]; simp
      · intro c hc
        rw [hrun] at hc
        rcases List.mem_cons.mp hc with h1 | h1
        · exact h1 ▸ ha
        · exact List.mem_takeWhile_imp h1
      · intro c hc
        exact head_dropWhile_not _ rest c hc
    · rw [firstDigitRun, if_neg ha] at h
      obtain ⟨pre, suf, heq, hpre, hne, hrun, hsuf⟩ := ih run h
      refine ⟨a :: pre, suf, by rw [heq]; rfl, ?_, hne, hrun, hsuf⟩
      intro c hc
      rcases List.mem_cons.mp hc with h1 | h1
      · rw [h1]
        exact Bool.of_not_eq_true ha
      · exact hpre c h1

theorem extractValue_chars (t : String) (c : Char)
    (hc : c ∈ (extractValue t).data) : c.isDigit = true ∨ c = '?' := by
  unfold extractValue at hc
  cases h : firstDigitRun t.data with
  | none =>
    rw [h] at hc
    right
    simpa using hc
  | some run =>
    rw [h] at hc
    obtain ⟨_, _, _, _, _, hrun, _⟩ := firstDigitRun_some_spec t.data run h
    exact Or.inl (hrun c hc)

/-! ### Lookup success for non-negative positions -/

theorem writeTarget_spec (vs : List ExtractedValue) (w : ExtractedValue) (hw : w ∈ vs) :
    ∃ yi xi : Nat, writeTarget (xsOfValues vs) (ysOfValues vs) w = some (yi, xi) ∧
      indexOfFrom (ysOfValues vs) (some w.y) 0 = (yi : Int) ∧
      indexOfFrom (xsOfValues vs) (some w.x) 0 = (xi : Int) ∧
      yi < (ysOfValues vs).length ∧ xi < (xsOfValues vs).length ∧
      (ysOfValues vs).getD yi none = some w.y ∧
      (xsOfValues vs).getD xi none = some w.x := by
  have hxmem : some w.x ∈ xsOfValues vs := by
    apply mem_buildAxis_of_mem
    rw [mem_sortedUniq]
    exact List.mem_map.mpr ⟨w, hw, rfl⟩
  have hymem : some w.y ∈ ysOfValues vs := by
    apply mem_buildAxis_of_mem
    rw [mem_sortedUniq]
    exact List.mem_map.mpr ⟨w, hw, rfl⟩
  obtain ⟨mx, hmx, hmxlen, hmxget⟩ := indexOfFrom_of_mem _ _ hxmem
  obtain ⟨my, hmy, hmylen, hmyget⟩ := indexOfFrom_of_mem _ _ hymem
  refine ⟨my, mx, ?_, by rw [hmy 0]; omega, by rw [hmx 0]; omega,
    hmylen, hmxlen, hmyget, hmxget⟩
  unfold writeTarget
  rw [hmx 0, hmy 0]
  rw [if_pos (by constructor <;> omega)]
  simp

theorem rows_length_foldl (xs ys : List (Option Int)) (cols : Nat) :
    ∀ (vs : List ExtractedValue) (g : List (List String)),
      (∀ row ∈ g, row.length = cols) →
      ∀ row ∈ vs.foldl (writeCell xs ys) g, row.length = cols := by
  intro vs
  induction vs with
  | nil => intro g hg; exact hg
  | cons v rest ih =>
    intro g hg
    rw [List.foldl_cons]
    refine ih (writeCell xs ys g v) ?_
    intro row hrow
    cases ht : writeTarget xs ys v with
    | none =>
      simp only [writeCell, ht] at hrow
      exact hg row hrow
    | some t =>
      cases t with
      | mk yi xi =>
        simp only [writeCell, ht] at hrow
        by_cases hlen : yi < g.length
        · rcases List.mem_or_eq_of_mem_set hrow with h | h
          · exact hg row h
          · subst h
            rw [List.length_set]
            exact hg _ (getD_mem_of_lt _ _ _ hlen)
        · rw [List.set_eq_of_length_le (by omega)] at hrow
          exact hg row hrow

theorem area_lt_tenth_iff (a rc : Int) :
    (10 * a < rc) ↔ ((a : ℚ) < (rc : ℚ) / 10) := by
  rw [lt_div_iff₀ (by norm_num : (0 : ℚ) < 10),
    show ((a : ℚ) * 10) = ((10 * a : Int) : ℚ) by push_cast; ring, Int.cast_lt]

theorem overlap_comm (r1 r2 : Rect) : overlap r1 r2 = overlap r2 r1 := by
  unfold overlap
  congr 1
  cases h1 : decide (r1.x + r1.width < r2.x) <;>
    cases h2 : decide (r2.x + r2.width < r1.x) <;>
    cases h3 : decide (r1.y + r1.height < r2.y) <;>
    cases h4 : decide (r2.y + r2.height < r1.y) <;> simp

/-- C7: the Region Filter returns exactly the subsequence of rectangles with
`width > 10`, `height > 10`, `area > 100` and `area < (rows*cols)/10` (real
division, stated over `ℚ`), preserving input order; being a pure function of
a list it has no side effects on the rectangles. -/
theorem regionFilter_exact (rects : List Rect) (rows cols : Int) :
    regionFilter rects rows cols = rects.filter (fun r =>
      decide (10 < r.width ∧ 10 < r.height ∧ 100 < r.width * r.height ∧
        ((r.width * r.height : Int) : ℚ) < ((rows * cols : Int) : ℚ) / 10)) ∧
    (regionFilter rects rows cols).Sublist rects ∧
    ∀ r : Rect, r ∈ regionFilter rects rows cols ↔
      (r ∈ rects ∧ 10 < r.width ∧ 10 < r.height ∧ 100 < r.width * r.height ∧
        ((r.width * r.height : Int) : ℚ) < ((rows * cols : Int) : ℚ) / 10) := by
  have hpred : ∀ r : Rect,
      (decide (10 < r.width) && decide (10 < r.height) &&
        decide (100 < r.width * r.height) &&
        decide (10 * (r.width * r.height) < rows * cols)) =
      decide (10 < r.width ∧ 10 < r.height ∧ 100 < r.width * r.height ∧
        ((r.width * r.height : Int) : ℚ) < ((rows * cols : Int) : ℚ) / 10) := by
    intro r
    have h4 : decide (10 * (r.width * r.height) < rows * cols) =
        decide (((r.width * r.height : Int) : ℚ) < ((rows * cols : Int) : ℚ) / 10) :=
      decide_eq_decide.mpr (area_lt_tenth_iff _ _)
    simp only [Bool.decide_and, h4, Bool.and_assoc]
  have heq : regionFilter rects rows cols = rects.filter (fun r =>
      decide (10 < r.width ∧ 10 < r.height ∧ 100 < r.width * r.height ∧
        ((r.width * r.height : Int) : ℚ) < ((rows * cols : Int) : ℚ) / 10)) := by
    unfold regionFilter
    exact List.filter_congr (fun r _ => hpred r)
  refine ⟨heq, heq ▸ List.filter_sublist rects, fun r => ?_⟩
  rw [heq, List.mem_filter]
  simp only [decide_eq_true_eq]

/-- C3: the Overlap Resolver keeps the rectangle at index `i` iff it overlaps
no rectangle at an earlier index of the original input order (dropped ones
included); the kept rectangles are therefore pairwise non-overlapping, and of
the two overlapping rectangles `{0,0,20,20}` and `{5,5,20,20}` only the first
survives. -/
theorem resolveOverlaps_spec (rects : List Rect) :
    (∀ i : Nat, (keptAt rects i = true ↔
      ∀ j : Nat, j < i → overlap (rects.getD i dRect) (rects.getD j dRect) = false)) ∧
    (∀ i j : Nat, i < j → keptAt rects i = true → keptAt rects j = true →
      overlap (rects.getD i dRect) (rects.getD j dRect) = false ∧
      overlap (rects.getD j dRect) (rects.getD i dRect) = false) ∧
    resolveOverlaps [⟨0, 0, 20, 20⟩, ⟨5, 5, 20, 20⟩] = [⟨0, 0, 20, 20⟩] := by
  have hkept : ∀ i : Nat, (keptAt rects i = true ↔
      ∀ j : Nat, j < i → overlap (rects.getD i dRect) (rects.getD j dRect) = false) := by
    intro i
    unfold keptAt
    rw [List.all_eq_true]
    constructor
    · intro h j hj
      have := h j (List.mem_range.mpr hj)
      simpa [Bool.not_eq_true'] using this
    · intro h j hjmem
      simpa [Bool.not_eq_true'] using h j (List.mem_range.mp hjmem)
  refine ⟨hkept, fun i j hij hi hj => ?_, by decide⟩
  have h1 : overlap (rects.getD j dRect) (rects.getD i dRect) = false :=
    (hkept j).mp hj i hij
  exact ⟨(overlap_comm _ _).trans h1, h1⟩

/-- C3 witness: two disjoint rectangles are both kept and indeed do not
overlap. -/
theorem resolveOverlaps_spec_witness :
    overlap (List.getD [⟨0, 0, 5, 5⟩, ⟨100, 100, 5, 5⟩] 0 dRect)
      (List.getD [⟨0, 0, 5, 5⟩, ⟨100, 100, 5, 5⟩] 1 dRect) = false :=
  ((resolveOverlaps_spec [⟨0, 0, 5, 5⟩, ⟨100, 100, 5, 5⟩]).2.1 0 1
    (by decide) (by decide) (by decide)).1

/-- C2: on an axis with at least two distinct pixel positions, the pitch is
the minimum of the consecutive differences of the sorted distinct positions,
and a consecutive pair at distance exactly `k *` pitch makes the walk insert
exactly `k - 1` gap slots before appending the later real position.  The
positions are pixel coordinates: non-negative and at most `2 ^ 20`, the range
on which JavaScript float rounding agrees with exact arithmetic. -/
theorem pitch_and_gaps (ps : List Int) (h2 : 2 ≤ (sortedUniq ps).length)
    (hb : ∀ p ∈ ps, 0 ≤ p ∧ p ≤ 2 ^ 20) :
    (minDelta (sortedUniq ps) ∈ deltas (sortedUniq ps) ∧
      ∀ d ∈ deltas (sortedUniq ps), minDelta (sortedUniq ps) ≤ d) ∧
    (∀ (a b : Int) (tail : List Int) (k : Nat), 1 ≤ k →
      b - a = (k : Int) * minDelta (sortedUniq ps) →
      walkFrom (minDelta (sortedUniq ps)) a (b :: tail) =
        List.replicate (k - 1) (some (-1)) ++
          some b :: walkFrom (minDelta (sortedUniq ps)) b tail) := by
  have hbd : ∀ d ∈ deltas (sortedUniq ps), d ≤ maxNumberValue := by
    intro d hd
    obtain ⟨x, hx, y, hy, hxy⟩ := deltas_sub_mem _ d hd
    have hx' := hb x ((mem_sortedUniq ps x).mp hx)
    have hy' := hb y ((mem_sortedUniq ps y).mp hy)
    have hbound : (2 : Int) ^ 20 ≤ maxNumberValue := by decide
    omega
  have hu : 0 < minDelta (sortedUniq ps) :=
    minDelta_pos _ (pairwise_lt_sortedUniq ps)
  refine ⟨minDelta_spec _ h2 hbd, fun a b tail k hk hba => ?_⟩
  have hsteps : numSteps (b - a) (minDelta (sortedUniq ps)) = (k : Int) := by
    rw [hba]
    exact numSteps_mul k _ hu
  have hcount : (numSteps (b - a) (minDelta (sortedUniq ps)) - 1).toNat = k - 1 := by
    rw [hsteps]; omega
  rw [walkFrom, hcount]

/-- C2 witness: on positions `{0, 20, 60}` the pitch is the minimum gap and
the `40 = 2 * 20` step inserts exactly one gap slot before `60`. -/
theorem pitch_and_gaps_witness :
    minDelta (sortedUniq [0, 20, 60]) ∈ deltas (sortedUniq [0, 20, 60]) ∧
    walkFrom (minDelta (sortedUniq [0, 20, 60])) 20 [60] =
      List.replicate (2 - 1) (some (-1)) ++
        some 60 :: walkFrom (minDelta (sortedUniq [0, 20, 60])) 60 [] :=
  ⟨(pitch_and_gaps [0, 20, 60] (by decide) (by decide)).1.1,
    (pitch_and_gaps [0, 20, 60] (by decide) (by decide)).2 20 60 [] 2
      (by decide) (by decide)⟩

/-- C6: axis reconstruction depends only on the set of distinct pixel
positions of the values, not on their order or multiplicity. -/
theorem axis_set_deterministic (vs1 vs2 : List ExtractedValue)
    (hx : ∀ p : Int, p ∈ vs1.map (fun w => w.x) ↔ p ∈ vs2.map (fun w => w.x))
    (hy : ∀ p : Int, p ∈ vs1.map (fun w => w.y) ↔ p ∈ vs2.map (fun w => w.y)) :
    xsOfValues vs1 = xsOfValues vs2 ∧ ysOfValues vs1 = ysOfValues vs2 := by
  unfold xsOfValues ysOfValues
  rw [sortedUniq_eq_of_mem_iff _ _ hx, sortedUniq_eq_of_mem_iff _ _ hy]
  exact ⟨rfl, rfl⟩

/-- C6 witness: a reordered, duplicated value list yields the same axes. -/
theorem axis_set_deterministic_witness :
    xsOfValues [⟨20, 0, ("1")⟩, ⟨0, 0, ("3")⟩, ⟨20, 0, ("9")⟩] =
      xsOfValues [⟨0, 0, ("3")⟩, ⟨20, 0, ("1")⟩] ∧
    ysOfValues [⟨20, 0, ("1")⟩, ⟨0, 0, ("3")⟩, ⟨20, 0, ("9")⟩] =
      ysOfValues [⟨0, 0, ("3")⟩, ⟨20, 0, ("1")⟩] :=
  axis_set_deterministic _ _
    (by
      intro p
      show p ∈ ([20, 0, 20] : List Int) ↔ p ∈ ([0, 20] : List Int)
      simp only [List.mem_cons, List.mem_singleton, List.not_mem_nil, or_false]
      tauto)
    (by
      intro p
      show p ∈ ([0, 0, 0] : List Int) ↔ p ∈ ([0, 0] : List Int)
      simp only [List.mem_cons, List.mem_singleton, List.not_mem_nil, or_false]
      tauto)

theorem buildAxis_degenerate_len (ps : List Int)
    (hdeg : ∀ a ∈ ps, ∀ b ∈ ps, a = b) :
    (buildAxis (sortedUniq ps)).length = 1 := by
  cases hl : sortedUniq ps with
  | nil => rfl
  | cons p rest =>
    cases rest with
    | nil => rfl
    | cons q rest' =>
      exfalso
      have hpair := pairwise_lt_sortedUniq ps
      rw [hl] at hpair
      have hpq : p < q := (List.pairwise_cons.mp hpair).1 q (List.mem_cons_self q _)
      have hp : p ∈ ps := (mem_sortedUniq ps p).mp (hl ▸ List.mem_cons_self p _)
      have hq : q ∈ ps := (mem_sortedUniq ps q).mp
        (hl ▸ List.mem_cons_of_mem p (List.mem_cons_self q rest'))
      have := hdeg p hp q hq
      omega

/-- C9: an axis with fewer than two distinct pixel positions (none or one)
yields an axis mapping of exactly one grid index; a value set whose y
positions all coincide accordingly yields a grid with a single row.  Both
computations complete normally — the degenerate case is a valid outcome, not
an error. -/
theorem degenerate_axis_outcome :
    (∀ ps : List Int, (∀ a ∈ ps, ∀ b ∈ ps, a = b) →
      (buildAxis (sortedUniq ps)).length = 1) ∧
    (∀ vs : List ExtractedValue, (∀ v ∈ vs, ∀ w ∈ vs, v.y = w.y) →
      (gridOf vs).length = 1) := by
  refine ⟨fun ps h => buildAxis_degenerate_len ps h, fun vs hdeg => ?_⟩
  unfold gridOf
  rw [length_foldl_write]
  unfold blankGrid
  rw [List.length_replicate]
  unfold ysOfValues
  apply buildAxis_degenerate_len
  intro a ha b hb
  obtain ⟨v, hv, hva⟩ := List.mem_map.mp ha
  obtain ⟨w, hw, hwb⟩ := List.mem_map.mp hb
  rw [← hva, ← hwb]
  exact hdeg v hv w hw

/-- C9 witness: a single repeated position gives a length-1 axis, and a
value list on one row gives a 1-row grid. -/
theorem degenerate_axis_outcome_witness :
    (buildAxis (sortedUniq [5, 5])).length = 1 ∧
    (gridOf [⟨0, 0, ("3")⟩, ⟨20, 0, ("1")⟩]).length = 1 :=
  ⟨degenerate_axis_outcome.1 [5, 5] (by decide),
    degenerate_axis_outcome.2 [⟨0, 0, ("3")⟩, ⟨20, 0, ("1")⟩] (by decide)⟩

/-- C10: for values with non-negative pixel positions, every grid-assembly
lookup succeeds: `indexOf` returns a non-negative in-bounds index (never
`-1`), the slot found holds the looked-up real position (never the gap
sentinel `-1`), and that position occurs in its axis exactly once. -/
theorem lookup_always_real (vs : List ExtractedValue)
    (hpos : ∀ w ∈ vs, 0 ≤ w.x ∧ 0 ≤ w.y) :
    ∀ w ∈ vs,
      ∃ yi xi : Nat, writeTarget (xsOfValues vs) (ysOfValues vs) w = some (yi, xi) ∧
        indexOfFrom (ysOfValues vs) (some w.y) 0 = (yi : Int) ∧
        indexOfFrom (xsOfValues vs) (some w.x) 0 = (xi : Int) ∧
        yi < (ysOfValues vs).length ∧ xi < (xsOfValues vs).length ∧
        (ysOfValues vs).getD yi none = some w.y ∧
        (ysOfValues vs).getD yi none ≠ some (-1) ∧
        (xsOfValues vs).getD xi none = some w.x ∧
        (xsOfValues vs).getD xi none ≠ some (-1) ∧
        (xsOfValues vs).count (some w.x) = 1 ∧
        (ysOfValues vs).count (some w.y) = 1 := by
  intro w hw
  obtain ⟨hx0, hy0⟩ := hpos w hw
  obtain ⟨yi, xi, ht, hyidx, hxidx, hylen, hxlen, hyget, hxget⟩ :=
    writeTarget_spec vs w hw
  refine ⟨yi, xi, ht, hyidx, hxidx, hylen, hxlen, hyget, ?_, hxget, ?_, ?_, ?_⟩
  · rw [hyget]
    intro h
    simp only [Option.some.injEq] at h
    omega
  · rw [hxget]
    intro h
    simp only [Option.some.injEq] at h
    omega
  · unfold xsOfValues
    rw [count_buildAxis _ _ (by omega)
      (List.ne_nil_of_mem ((mem_sortedUniq _ _).mpr (List.mem_map.mpr ⟨w, hw, rfl⟩)))]
    exact List.count_eq_one_of_mem (nodup_sortedUniq _)
      ((mem_sortedUniq _ _).mpr (List.mem_map.mpr ⟨w, hw, rfl⟩))
  · unfold ysOfValues
    rw [count_buildAxis _ _ (by omega)
      (List.ne_nil_of_mem ((mem_sortedUniq _ _).mpr (List.mem_map.mpr ⟨w, hw, rfl⟩)))]
    exact List.count_eq_one_of_mem (nodup_sortedUniq _)
      ((mem_sortedUniq _ _).mpr (List.mem_map.mpr ⟨w, hw, rfl⟩))

/-- C10 witness: the lookups succeed on a concrete value list. -/
theorem lookup_always_real_witness :
    ∃ yi xi : Nat,
      writeTarget (xsOfValues [⟨0, 0, ("3")⟩, ⟨20, 0, ("1")⟩])
          (ysOfValues [⟨0, 0, ("3")⟩, ⟨20, 0, ("1")⟩]) ⟨20, 0, ("1")⟩ = some (yi, xi) ∧
        indexOfFrom (ysOfValues [⟨0, 0, ("3")⟩, ⟨20, 0, ("1")⟩]) (some (0 : Int)) 0 = (yi : Int) ∧
        indexOfFrom (xsOfValues [⟨0, 0, ("3")⟩, ⟨20, 0, ("1")⟩]) (some (20 : Int)) 0 = (xi : Int) ∧
        yi < (ysOfValues [⟨0, 0, ("3")⟩, ⟨20, 0, ("1")⟩]).length ∧
        xi < (xsOfValues [⟨0, 0, ("3")⟩, ⟨20, 0, ("1")⟩]).length ∧
        (ysOfValues [⟨0, 0, ("3")⟩, ⟨20, 0, ("1")⟩]).getD yi none = some (0 : Int) ∧
        (ysOfValues [⟨0, 0, ("3")⟩, ⟨20, 0, ("1")⟩]).getD yi none ≠ some (-1) ∧
        (xsOfValues [⟨0, 0, ("3")⟩, ⟨20, 0, ("1")⟩]).getD xi none = some (20 : Int) ∧
        (xsOfValues [⟨0, 0, ("3")⟩, ⟨20, 0, ("1")⟩]).getD xi none ≠ some (-1) ∧
        (xsOfValues [⟨0, 0, ("3")⟩, ⟨20, 0, ("1")⟩]).count (some (20 : Int)) = 1 ∧
        (ysOfValues [⟨0, 0, ("3")⟩, ⟨20, 0, ("1")⟩]).count (some (0 : Int)) = 1 :=
  lookup_always_real [⟨0, 0, ("3")⟩, ⟨20, 0, ("1")⟩] (by decide)
    ⟨20, 0, ("1")⟩ (by decide)

/-- C5: for every value set with non-negative positions and single-character
values (the ExtractedValue data model), the grid has `len(y mapping)` rows,
every row has `len(x mapping)` cells, serialized rows keep that exact width,
cells targeted by no value hold the blank `" "`, and every value is written
to exactly one cell, its `(y_index, x_index)` target, which afterwards holds
the value of a value mapping there. -/
theorem grid_shape (vs : List ExtractedValue)
    (hpos : ∀ w ∈ vs, 0 ≤ w.x ∧ 0 ≤ w.y)
    (hv : ∀ w ∈ vs, (w.v).length = 1) :
    (gridOf vs).length = (ysOfValues vs).length ∧
    (∀ row ∈ gridOf vs, row.length = (xsOfValues vs).length) ∧
    (∀ row ∈ gridOf vs, (concatRow row).length = (xsOfValues vs).length) ∧
    (∀ i j : Nat, i < (ysOfValues vs).length → j < (xsOfValues vs).length →
      (∀ w ∈ vs, writeTarget (xsOfValues vs) (ysOfValues vs) w ≠ some (i, j)) →
      getCell (gridOf vs) i j = (" ")) ∧
    (∀ w ∈ vs, ∃ yi xi : Nat,
      writeTarget (xsOfValues vs) (ysOfValues vs) w = some (yi, xi) ∧
      yi < (ysOfValues vs).length ∧ xi < (xsOfValues vs).length ∧
      ∃ w2 ∈ vs, writeTarget (xsOfValues vs) (ysOfValues vs) w2 = some (yi, xi) ∧
        getCell (gridOf vs) yi xi = w2.v) := by
  have hrows : ∀ row ∈ gridOf vs, row.length = (xsOfValues vs).length := by
    apply rows_length_foldl
    intro row hrow
    rw [List.eq_of_mem_replicate hrow, List.length_replicate]
  have hcells : ∀ row ∈ gridOf vs, ∀ c ∈ row, String.length c = 1 := by
    apply cells_of_foldl
    · intro row hrow c hc
      rw [List.eq_of_mem_replicate hrow] at hc
      rw [List.eq_of_mem_replicate hc]
      rfl
    · exact hv
  refine ⟨?_, hrows, ?_, ?_, ?_⟩
  · unfold gridOf
    rw [length_foldl_write]
    unfold blankGrid
    exact List.length_replicate _ _
  · intro row hrow
    rw [concatRow_length_of_single row (hcells row hrow)]
    exact hrows row hrow
  · intro i j hi hj hno
    unfold gridOf
    rw [getCell_foldl_of_no_write _ _ _ _ _ _ hno]
    unfold getCell blankGrid
    rw [getD_replicate_of_lt _ _ _ _ hi, getD_replicate_of_lt _ _ _ _ hj]
  · intro w hw
    obtain ⟨yi, xi, ht, _, _, hylen, hxlen, _, _⟩ := writeTarget_spec vs w hw
    refine ⟨yi, xi, ht, hylen, hxlen, ?_⟩
    unfold gridOf
    have hg1 : yi < (blankGrid (ysOfValues vs).length (xsOfValues vs).length).length := by
      unfold blankGrid
      rw [List.length_replicate]
      exact hylen
    have hg2 : xi <
        ((blankGrid (ysOfValues vs).length (xsOfValues vs).length).getD yi []).length := by
      unfold blankGrid
      rw [getD_replicate_of_lt _ _ _ _ hylen, List.length_replicate]
      exact hxlen
    exact getCell_foldl_written _ _ vs _ yi xi ⟨w, hw, ht⟩ hg1 hg2

/-- C5 witness: the grid-shape facts instantiated on a concrete value set. -/
theorem grid_shape_witness :
    (gridOf [⟨0, 0, ("3")⟩, ⟨20, 20, ("1")⟩]).length =
      (ysOfValues [⟨0, 0, ("3")⟩, ⟨20, 20, ("1")⟩]).length ∧
    ∀ row ∈ gridOf [⟨0, 0, ("3")⟩, ⟨20, 20, ("1")⟩],
      row.length = (xsOfValues [⟨0, 0, ("3")⟩, ⟨20, 20, ("1")⟩]).length :=
  ⟨(grid_shape [⟨0, 0, ("3")⟩, ⟨20, 20, ("1")⟩] (by decide) (by decide)).1,
    (grid_shape [⟨0, 0, ("3")⟩, ⟨20, 20, ("1")⟩] (by decide) (by decide)).2.1⟩

/-- C4 counterexample: the extractor does not normalize to a single digit
character.  OCR text `"0"` yields the value `"0"`, so the resulting
grid_text contains the character `'0'`, which is outside `{'1'..'9', '?', ' '}`;
OCR text `"120"` yields the three-character value `"120"`. -/
theorem extract_not_single_digit :
    extractValue ("0") = ("0") ∧
    (extractValue ("120")).length ≠ 1 ∧
    ¬ (∀ c ∈ (gridTextOf [⟨0, 0, extractValue ("0")⟩]).data,
        ('1' ≤ c ∧ c ≤ '9') ∨ c = '?' ∨ c = ' ') := by
  decide

/-- C4 (amended): the Value Extractor takes the first maximal run of decimal
digits of the OCR text verbatim (possibly several characters, possibly
containing `'0'`), or `'?'` when the text has no digit; consequently every
character of the produced grid_text is a decimal digit, `'?'`, the blank
`' '`, or the newline separator. -/
theorem extract_first_run_and_charset :
    (∀ t : String, (∀ c ∈ t.data, c.isDigit = false) → extractValue t = ("?")) ∧
    (∀ t : String, ∀ run : List Char, firstDigitRun t.data = some run →
      extractValue t = String.mk run ∧
      ∃ pre suf, t.data = pre ++ run ++ suf ∧ (∀ c ∈ pre, c.isDigit = false) ∧
        run ≠ [] ∧ (∀ c ∈ run, c.isDigit = true) ∧
        (∀ c, suf.head? = some c → c.isDigit = false)) ∧
    (∀ vs : List ExtractedValue,
      (∀ w ∈ vs, ∀ c ∈ (w.v).data, c.isDigit = true ∨ c = '?') →
      ∀ c ∈ (gridTextOf vs).data,
        c.isDigit = true ∨ c = '?' ∨ c = ' ' ∨ c = '\n') := by
  refine ⟨?_, ?_, ?_⟩
  · intro t h
    unfold extractValue
    rw [firstDigitRun_of_all_not t.data h]
  · intro t run h
    refine ⟨by unfold extractValue; rw [h], ?_⟩
    exact firstDigitRun_some_spec t.data run h
  · intro vs hvals c hc
    unfold gridTextOf at hc
    rcases mem_data_joinLines _ c hc with ⟨s, hs, hcs⟩ | hnl
    · obtain ⟨row, hrow, hsrow⟩ := List.mem_map.mp hs
      obtain ⟨cell, hcell, hccell⟩ := mem_data_concatRow row c (hsrow ▸ hcs)
      have hP : ∀ row ∈ gridOf vs, ∀ cell ∈ row,
          (∀ c ∈ cell.data, c.isDigit = true ∨ c = '?' ∨ c = ' ') := by
        apply cells_of_foldl
        · intro row hrow cell hcell c hc
          rw [List.eq_of_mem_replicate hrow] at hcell
          rw [List.eq_of_mem_replicate hcell] at hc
          right; right
          simpa using hc
        · intro w hw c hc
          rcases hvals w hw c hc with h | h
          · exact Or.inl h
          · exact Or.inr (Or.inl h)
      rcases hP row hrow cell hcell c hccell with h | h | h
      · exact Or.inl h
      · exact Or.inr (Or.inl h)
      · exact Or.inr (Or.inr (Or.inl h))
    · exact Or.inr (Or.inr (Or.inr hnl))

/-- C4 witness: instantiated on OCR text `"123abc"` and a one-value grid. -/
theorem extract_first_run_and_charset_witness :
    extractValue ("123abc") = String.mk ['1', '2', '3'] ∧
    (('5' : Char).isDigit = true ∨ '5' = '?' ∨ '5' = ' ' ∨ '5' = '\n') :=
  ⟨(extract_first_run_and_charset.2.1 ("123abc") ['1', '2', '3'] (by decide)).1,
    extract_first_run_and_charset.2.2 [⟨0, 0, ("5")⟩] (by decide) '5' (by decide)⟩

/-- The end-to-end example value set of the specification: positions
`x ∈ {0, 20, 60}`, `y ∈ {0, 20}` with values 3, 1, 2, 4. -/
def exVals : List ExtractedValue :=
  [⟨0, 0, ("3")⟩, ⟨20, 0, ("1")⟩, ⟨60, 0, ("2")⟩, ⟨0, 20, ("4")⟩]

/-- C1 counterexample: the first serialized row of the example grid is not
`"3 1 2"` — the row cells are joined with no separator (`join("")`), so the
first five characters of the grid text are `'3','1',' ','2','\n'`. -/
theorem example_first_row_cex :
    (gridTextOf exVals).data.take 5 ≠ ("3 1 2").data := by
  decide

/-- C1 (amended): on the example value set, `unit_x = 20`, exactly one gap
column is inserted between 20 and 60, the x mapping has length 4, and the
serialization is `"31 2\n4   "`: first row `"31 2"` (cells joined with no
separator), second row `"4"` padded with blanks, each row exactly the column
count wide. -/
theorem example_grid_actual :
    minDelta (sortedUniq (exVals.map (fun w => w.x))) = 20 ∧
    xsOfValues exVals = [some 0, some 20, some (-1), some 60] ∧
    (xsOfValues exVals).length = 4 ∧
    (xsOfValues exVals).count (some (-1)) = 1 ∧
    (gridOf exVals).map concatRow = [("31 2"), ("4   ")] ∧
    gridTextOf exVals = ("31 2\n4   ") := by
  decide

/-- C8 counterexample: on an empty detection the run does not fail — grid
reconstruction still produces a (1 × 1, all-blank) grid and serializes it. -/
theorem empty_detection_cex :
    gridOf [] = [[(" ")]] ∧ gridTextOf [] = (" ") := by
  decide

/-- C8 (amended): when the detector returns zero candidates, the pipeline
completes without any error signal: both axis mappings are the one-slot
`[undefined]` array, the grid is 1 × 1 holding the blank marker, and the
grid text is the single blank character. -/
theorem empty_detection_grid :
    xsOfValues [] = [none] ∧ ysOfValues [] = [none] ∧
    (gridOf []).length = 1 ∧ (∀ row ∈ gridOf [], row.length = 1) ∧
    gridTextOf [] = (" ") := by
  decide

example : sortedUniq [0, 20, 60, 0] = [0, 20, 60] := by decide
example : minDelta [0, 20, 60] = 20 := by decide
example : buildAxis [0, 20, 60] = [some 0, some 20, some (-1), some 60] := by decide
example : gridTextOf [⟨0, 0, ("3")⟩, ⟨20, 0, ("1")⟩, ⟨60, 0, ("2")⟩, ⟨0, 20, ("4")⟩] =
    ("31 2\n4   ") := by decide
example : gridTextOf [] = (" ") := by decide
example : extractValue ("ab12x3") = ("12") := by decide
example : extractValue ("abc") = ("?") := by decide
example : resolveOverlaps [⟨0, 0, 20, 20⟩, ⟨5, 5, 20, 20⟩] = [⟨0, 0, 20, 20⟩] := by decide
